/-
Verification of the image-scraping pipeline in utils/scrape.py.

The file embeds the pure logic of the scraper in Lean:
  - the image-URL regex and its findall scan (GoogleImagesScraper.image_urls_regex),
  - the gstatic filter (GoogleImagesScraper._filter_image_urls),
  - the random selection loop (GoogleImagesScraper.fetch),
  - the download event order (GoogleImagesScraper._fetch_image),
  - the metadata record derivation (GoogleImagesScraper._get_image_data),
  - the request-parameter builders (GoogleImagesReverseScraper._get_request_params),
  - the return-format dispatch (GoogleImagesScraper._fetch_request),
  - the argparse handling of the --num flag (the __main__ block).

Strings are modelled as List Char; the random number generator is an
arbitrary oracle rand : Nat -> Nat whose value at each step is reduced
modulo the current list length, exactly the range random.choice draws from.
-/
import Mathlib

/-- Character class of the regex, transliterated from [a-zA-Z0-9/_.-]. -/
def isUrlChar (c : Char) : Bool :=
  (('a' ≤ c && c ≤ 'z') || ('A' ≤ c && c ≤ 'Z') || ('0' ≤ c && c ≤ '9')
    || c == '/' || c == '_' || c == '.' || c == '-')

/-- The alternation (?:jpg|jpeg|png|svg|gif|tiff), in source order. -/
def extensions : List (List Char) :=
  ["jpg".data, "jpeg".data, "png".data, "svg".data, "gif".data, "tiff".data]

/-- One backtracking attempt of the regex engine: with the greedy plus
holding j characters, try to match the literal dot and then the first
alternative of the extension alternation.  Returns the number of
characters consumed after the scheme on success. -/
def tryDot (rest : List Char) (j : Nat) : Option Nat :=
  if (rest.drop j).head? = some '.' then
    match extensions.find? (fun e => e.isPrefixOf (rest.drop (j + 1))) with
    | some e => some (j + 1 + e.length)
    | none => none
  else none

/-- Greedy backtracking of [a-zA-Z0-9/_.-]+ : the plus first consumes as
many class characters as possible and gives characters back one at a
time until the dot-and-extension tail matches; at least one character
must remain consumed. -/
def backtrackPlus (rest : List Char) : Nat → Option Nat
  | 0 => none
  | j + 1 =>
    match tryDot rest (j + 1) with
    | some len => some len
    | none => backtrackPlus rest j

/-- Length of the regex match starting at the head of s, if any:
the literal "https://", then the greedy class plus, then [.] and an
extension.  Mirrors how the compiled pattern attempts a match at one
position. -/
def matchLen (s : List Char) : Option Nat :=
  if "https://".data.isPrefixOf s then
    match backtrackPlus (s.drop 8) ((s.drop 8).takeWhile isUrlChar).length with
    | some len => some (8 + len)
    | none => none
  else none

/-- regex.findall over the image-URL pattern: scan left to right, emit
each leftmost match and resume after it.  (For a match of length len at
c :: cs, the scan resumes at (c :: cs).drop len = cs.drop (len - 1);
matches are never empty since they contain the scheme.)  The scan is
written with explicit fuel so that it reduces by iota; every step
consumes at least one character, so fuel s.length is always enough. -/
def findallFuel : Nat → List Char → List (List Char)
  | 0, _ => []
  | _ + 1, [] => []
  | fuel + 1, c :: cs =>
    match matchLen (c :: cs) with
    | some len => (c :: cs).take len :: findallFuel fuel (cs.drop (len - 1))
    | none => findallFuel fuel cs

def findall (s : List Char) : List (List Char) :=
  findallFuel s.length s

/-- Python substring containment (pat in s): pat occurs contiguously in s. -/
def isSubstr (pat : List Char) : List Char → Bool
  | [] => pat.isEmpty
  | c :: cs => pat.isPrefixOf (c :: cs) || isSubstr pat cs

/-- GoogleImagesScraper._filter_image_urls: keep a URL unless the
substring "gstatic" occurs in it. -/
def filter_image_urls (u : List Char) : Bool :=
  !(isSubstr "gstatic".data u)

/-- The pure part of GoogleImagesScraper._fetch_image_urls: findall over
the response body, then the gstatic filter. -/
def fetch_image_urls_of (html : List Char) : List (List Char) :=
  (findall html).filter filter_image_urls

/-- The host part of an https URL as the spec uses the word: the
characters between the scheme and the first slash. -/
def hostOf (u : List Char) : List Char :=
  (u.drop 8).takeWhile (fun c => c != '/')

/-- A whole string matches the image-URL pattern: the scheme, a nonempty
body of class characters, a dot and one of the six extensions. -/
def MatchesImagePattern (u : List Char) : Prop :=
  ∃ body ext, 0 < body.length ∧ body.all isUrlChar = true ∧ ext ∈ extensions ∧
    u = "https://".data ++ body ++ '.' :: ext

/-- Python list.index(v): position of the first occurrence of v. -/
def pyIndex {α : Type} [DecidableEq α] : List α → α → Nat
  | [], _ => 0
  | a :: t, v => if a = v then 0 else pyIndex t v + 1

/-- The selection loop of GoogleImagesScraper.fetch: at each of k steps,
random.choice picks the element at a random valid position (the oracle
value reduced modulo the length), list.index finds its first occurrence
and list.pop removes that occurrence and returns it.  random.choice on
an empty list raises IndexError, modelled as none. -/
def selectLoop {α : Type} [DecidableEq α] (rand : Nat → Nat) :
    Nat → Nat → List α → Option (List α)
  | _, 0, _ => some []
  | _, _ + 1, [] => none
  | step, k + 1, a :: t =>
    (selectLoop rand (step + 1) k
        ((a :: t).eraseIdx (pyIndex (a :: t) ((a :: t).getD (rand step % (a :: t).length) a)))).map
      (fun r => (a :: t).getD (rand step % (a :: t).length) a :: r)

/-- GoogleImagesScraper.fetch, selection part: loop_range is
num_results if num_results <= len(image_urls) else len(image_urls),
and range(loop_range) is empty when loop_range is not positive. -/
def fetch {α : Type} [DecidableEq α] (rand : Nat → Nat) (num_results : Int)
    (image_urls : List α) : Option (List α) :=
  selectLoop rand 0
    (if num_results ≤ (image_urls.length : Int) then num_results
     else (image_urls.length : Int)).toNat
    image_urls

/-- os.path.basename on a posix path: the part after the last slash. -/
def basename (p : List Char) : List Char :=
  (p.reverse.takeWhile (fun c => c != '/')).reverse

/-- Python str.split(sep) for a one-character separator: splits at every
occurrence, keeps empty fields, always returns at least one element. -/
def pySplit (sep : Char) : List Char → List (List Char)
  | [] => [[]]
  | c :: cs =>
    if c = sep then [] :: pySplit sep cs
    else
      match pySplit sep cs with
      | [] => [[c]]
      | r :: rs => (c :: r) :: rs

/-- The characters after the final dot of a name (the whole name when it
has no dot): the file extension in the sense of the specification. -/
def afterLastDot : List Char → List Char
  | [] => []
  | c :: cs =>
    if '.' ∈ cs then afterLastDot cs
    else if c = '.' then cs
    else c :: cs

/-- The metadata dictionary built by GoogleImagesScraper._get_image_data.
The current UTC date and time are environment inputs, passed in. -/
structure ImageData where
  date : Nat
  time : Nat
  type : List Char
  query : List Char
  scraper : List Char
  image_url : List Char
  image_filename : List Char
  image_format : List Char
deriving DecidableEq

/-- GoogleImagesScraper._get_image_data.  image_format is
filename.split(".")[-1]; pySplit never returns an empty list, so the
[-1] lookup always succeeds and getLastD's default is never used. -/
def get_image_data (now_date now_time : Nat) (query scraper url : List Char) : ImageData :=
  { date := now_date
    time := now_time
    type := "image".data
    query := query
    scraper := scraper
    image_url := url
    image_filename := basename url
    image_format := (pySplit '.' (basename url)).getLastD [] }

/-- Observable input/output actions of one download. -/
inductive IOEvent where
  | openWrite (path : List Char)
  | httpGet (u : List Char)
  | writeFile (path : List Char)
  | closeFile (path : List Char)
deriving DecidableEq

/-- Path.joinpath rendered as posix. -/
def joinPath (dir name : List Char) : List Char :=
  dir ++ '/' :: name

/-- The event trace of GoogleImagesScraper._fetch_image: the async-with
entry opens the target file in wb mode, then the write argument is
evaluated (the GET for the raw bytes), then the single write runs, then
the async-with exit closes the file. -/
def fetch_image_events (image_dir : List Char) (d : ImageData) : List IOEvent :=
  [IOEvent.openWrite (joinPath image_dir d.image_filename),
   IOEvent.httpGet d.image_url,
   IOEvent.writeFile (joinPath image_dir d.image_filename),
   IOEvent.closeFile (joinPath image_dir d.image_filename)]

def isOpenEv : IOEvent → Bool
  | IOEvent.openWrite _ => true
  | _ => false

def isGetEv : IOEvent → Bool
  | IOEvent.httpGet _ => true
  | _ => false

def isWriteEv : IOEvent → Bool
  | IOEvent.writeFile _ => true
  | _ => false

/-- Body of a successful HTTP response, as the transport hands it over. -/
inductive FetchResponse where
  | raw (bytes : List Nat)
  | html (text : List Char)
deriving DecidableEq

/-- Result of GoogleImagesScraper._fetch_request: either a returned body
or the TypeError raised for an unrecognized return format. -/
inductive FetchOutcome where
  | ok (r : FetchResponse)
  | typeError (msg : List Char)
deriving DecidableEq

/-- GoogleImagesScraper._fetch_request with the transport as a black box:
the response body is an input; the return_format argument selects
response.read() for "raw", response.text() for "html", and anything
else raises TypeError. -/
def fetch_request (resp_bytes : List Nat) (resp_text : List Char)
    (return_format : List Char) : FetchOutcome :=
  if return_format = "raw".data then FetchOutcome.ok (FetchResponse.raw resp_bytes)
  else if return_format = "html".data then FetchOutcome.ok (FetchResponse.html resp_text)
  else FetchOutcome.typeError "please enter a valid return format (raw or html)".data

def isOkOutcome : FetchOutcome → Bool
  | FetchOutcome.ok _ => true
  | FetchOutcome.typeError _ => false

/-- A request descriptor: target endpoint and query parameters. -/
structure RequestParams where
  url : List Char
  params : List (List Char × List Char)
deriving DecidableEq

/-- Association lookup over the parameter list. -/
def lookupParam : List (List Char × List Char) → List Char → Option (List Char)
  | [], _ => none
  | p :: ps, key => if p.1 = key then some p.2 else lookupParam ps key

/-- GoogleImagesScraper._get_request_params: text-search mode. -/
def get_request_params (query : List Char) : RequestParams :=
  { url := "https://www.google.com/search".data
    params := [("q".data, query), ("tbm".data, "isch".data)] }

/-- GoogleImagesReverseScraper._get_request_params: reverse-image mode. -/
def reverse_get_request_params (query : List Char) : RequestParams :=
  { url := "https://www.google.com/searchbyimage".data
    params := [("image_url".data, query), ("encoded_image".data, []),
               ("image_content".data, []), ("filename".data, []),
               ("hl".data, "en".data)] }

/-- The value of args.num after parsing: argparse stores the values of a
provided nargs=1 flag as a one-element list, but stores the default
(100, an int) verbatim when the flag is absent. -/
inductive PyNumVal where
  | intVal (n : Int)
  | listVal (l : List Int)
deriving DecidableEq

/-- argparse result for the --num flag of the __main__ block. -/
def parse_num_arg : Option Int → PyNumVal
  | some n => PyNumVal.listVal [n]
  | none => PyNumVal.intVal 100

/-- args.num.pop(): removes and returns the last element of a list;
an int has no pop attribute, so the call raises AttributeError,
modelled as none. -/
def pyPop : PyNumVal → Option Int
  | PyNumVal.listVal l => l.getLast?
  | PyNumVal.intVal _ => none

/-- The num_results value the __main__ block hands to the scraper, as a
function of whether --num was given on the command line. -/
def cli_num (given : Option Int) : Option Int :=
  pyPop (parse_num_arg given)

theorem getD_mem {α : Type} :
    ∀ (l : List α) (i : Nat) (d : α), i < l.length → l.getD i d ∈ l := by
  intro l
  induction l with
  | nil => intro i d h; simp at h
  | cons a t ih =>
    intro i d h
    cases i with
    | zero => simp
    | succ n =>
      simp only [List.getD_cons_succ]
      exact List.mem_cons_of_mem _ (ih n d (by simp at h; omega))

theorem pyIndex_lt {α : Type} [DecidableEq α] :
    ∀ (l : List α) (v : α), v ∈ l → pyIndex l v < l.length := by
  intro l
  induction l with
  | nil => intro v h; simp at h
  | cons a t ih =>
    intro v h
    by_cases hav : a = v
    · simp [pyIndex, hav]
    · have hv : v ∈ t := by
        rcases List.mem_cons.1 h with h1 | h2
        · exact absurd h1.symm hav
        · exact h2
      simp only [pyIndex, if_neg hav, List.length_cons]
      exact Nat.succ_lt_succ (ih v hv)

theorem pyIndex_perm {α : Type} [DecidableEq α] :
    ∀ (l : List α) (v : α), v ∈ l → (v :: l.eraseIdx (pyIndex l v)).Perm l := by
  intro l
  induction l with
  | nil => intro v h; simp at h
  | cons a t ih =>
    intro v h
    by_cases hav : a = v
    · simp only [pyIndex, if_pos hav, List.eraseIdx_cons_zero]
      rw [hav]
    · have hv : v ∈ t := by
        rcases List.mem_cons.1 h with h1 | h2
        · exact absurd h1.symm hav
        · exact h2
      simp only [pyIndex, if_neg hav, List.eraseIdx_cons_succ]
      exact (List.Perm.swap' a v (List.Perm.refl _)).trans ((ih v hv).cons a)

theorem selectLoop_isSome {α : Type} [DecidableEq α] (rand : Nat → Nat) :
    ∀ (k : Nat) (l : List α) (step : Nat), k ≤ l.length →
      (selectLoop rand step k l).isSome = true := by
  intro k
  induction k with
  | zero => intro l step _; cases l <;> simp [selectLoop]
  | succ n ih =>
    intro l step h
    cases l with
    | nil => simp at h
    | cons a t =>
      simp only [selectLoop, Option.isSome_map']
      apply ih
      have hmem : (a :: t).getD (rand step % (a :: t).length) a ∈ a :: t :=
        getD_mem _ _ _ (Nat.mod_lt _ (Nat.succ_pos _))
      have hidx := pyIndex_lt _ _ hmem
      have hlen := List.length_eraseIdx_of_lt hidx
      simp only [List.length_cons] at h hlen ⊢
      omega

theorem selectLoop_length {α : Type} [DecidableEq α] (rand : Nat → Nat) :
    ∀ (k : Nat) (l : List α) (step : Nat) (r : List α),
      selectLoop rand step k l = some r → r.length = k := by
  intro k
  induction k with
  | zero =>
    intro l step r h
    cases l <;> simp [selectLoop] at h <;> simp [h.symm]
  | succ n ih =>
    intro l step r h
    cases l with
    | nil => simp [selectLoop] at h
    | cons a t =>
      simp only [selectLoop, Option.map_eq_some'] at h
      obtain ⟨r1, hr1, hr⟩ := h
      subst hr
      simp [ih _ _ _ hr1]

theorem selectLoop_multiset {α : Type} [DecidableEq α] (rand : Nat → Nat) :
    ∀ (k : Nat) (l : List α) (step : Nat) (r : List α),
      selectLoop rand step k l = some r → (r : Multiset α) ≤ (l : Multiset α) := by
  intro k
  induction k with
  | zero =>
    intro l step r h
    have hr : r = [] := by
      cases l <;> simp [selectLoop] at h <;> exact h
    subst hr
    rw [Multiset.coe_nil]
    exact Multiset.zero_le _
  | succ n ih =>
    intro l step r h
    cases l with
    | nil => simp [selectLoop] at h
    | cons a t =>
      simp only [selectLoop, Option.map_eq_some'] at h
      obtain ⟨r1, hr1, hr⟩ := h
      subst hr
      have hmem : (a :: t).getD (rand step % (a :: t).length) a ∈ a :: t :=
        getD_mem _ _ _ (Nat.mod_lt _ (Nat.succ_pos _))
      have hperm := pyIndex_perm _ _ hmem
      calc ((((a :: t).getD (rand step % (a :: t).length) a :: r1 : List α)) : Multiset α)
          = (a :: t).getD (rand step % (a :: t).length) a ::ₘ (r1 : Multiset α) :=
            (Multiset.cons_coe _ _).symm
        _ ≤ (a :: t).getD (rand step % (a :: t).length) a ::ₘ
              (((a :: t).eraseIdx (pyIndex (a :: t) ((a :: t).getD (rand step % (a :: t).length) a)) : List α) : Multiset α) :=
            Multiset.cons_le_cons _ (ih _ _ _ hr1)
        _ = (((a :: t).getD (rand step % (a :: t).length) a ::
              (a :: t).eraseIdx (pyIndex (a :: t) ((a :: t).getD (rand step % (a :: t).length) a)) : List α) : Multiset α) :=
            Multiset.cons_coe _ _
        _ = ((a :: t : List α) : Multiset α) := Multiset.coe_eq_coe.2 hperm

theorem selectLoop_perm {α : Type} [DecidableEq α] (rand : Nat → Nat) :
    ∀ (k : Nat) (l : List α) (step : Nat) (r : List α),
      k = l.length → selectLoop rand step k l = some r → r.Perm l := by
  intro k
  induction k with
  | zero =>
    intro l step r hk h
    have : l = [] := by
      cases l
      · rfl
      · simp at hk
    subst this
    simp [selectLoop] at h
    simp [h.symm]
  | succ n ih =>
    intro l step r hk h
    cases l with
    | nil => simp [selectLoop] at h
    | cons a t =>
      simp only [selectLoop, Option.map_eq_some'] at h
      obtain ⟨r1, hr1, hr⟩ := h
      subst hr
      have hmem : (a :: t).getD (rand step % (a :: t).length) a ∈ a :: t :=
        getD_mem _ _ _ (Nat.mod_lt _ (Nat.succ_pos _))
      have hidx := pyIndex_lt _ _ hmem
      have hlen := List.length_eraseIdx_of_lt hidx
      have hn : n = ((a :: t).eraseIdx
          (pyIndex (a :: t) ((a :: t).getD (rand step % (a :: t).length) a))).length := by
        rw [hlen]
        simp only [List.length_cons] at hk ⊢
        omega
      exact ((ih _ _ _ hn hr1).cons _).trans (pyIndex_perm _ _ hmem)

/-- C9: for every random oracle, every integer num_results (including
zero and negative values) and every candidate list, the selection loop
of fetch never fails (each draw sees a non-empty list) and runs exactly
min(num_results, length) iterations, which is zero when num_results is
not positive. -/
theorem fetch_never_fails {α : Type} [DecidableEq α] (rand : Nat → Nat)
    (num_results : Int) (image_urls : List α) :
    (fetch rand num_results image_urls).isSome = true ∧
    ((fetch rand num_results image_urls).getD []).length =
      (min num_results (image_urls.length : Int)).toNat := by
  have hk : (if num_results ≤ (image_urls.length : Int) then num_results
      else (image_urls.length : Int)).toNat ≤ image_urls.length := by
    split <;> omega
  have h1 := selectLoop_isSome rand _ image_urls 0 hk
  unfold fetch
  refine ⟨h1, ?_⟩
  obtain ⟨r, hr⟩ := Option.isSome_iff_exists.1 h1
  rw [hr, Option.getD_some, selectLoop_length rand _ _ _ _ hr, min_def]

/-- C2 (amended): for every random oracle, every natural requested count
and every candidate list, fetch succeeds and returns exactly
min(N, L) elements, and the returned elements, counted with
multiplicity, are contained in the candidate list; so they are all
drawn from the candidate list, and they are all distinct whenever the
candidate list itself has no duplicates. -/
theorem fetch_count_and_source {α : Type} [DecidableEq α] (rand : Nat → Nat)
    (n : Nat) (image_urls : List α) :
    (fetch rand (n : Int) image_urls).isSome = true ∧
    ((fetch rand (n : Int) image_urls).getD []).length = min n image_urls.length ∧
    (((fetch rand (n : Int) image_urls).getD [] : List α) : Multiset α) ≤
      (image_urls : Multiset α) := by
  have hk : (if (n : Int) ≤ (image_urls.length : Int) then (n : Int)
      else (image_urls.length : Int)).toNat ≤ image_urls.length := by
    split <;> omega
  have h1 := selectLoop_isSome rand _ image_urls 0 hk
  unfold fetch
  refine ⟨h1, ?_, ?_⟩
  · obtain ⟨r, hr⟩ := Option.isSome_iff_exists.1 h1
    rw [hr, Option.getD_some, selectLoop_length rand _ _ _ _ hr]
    split <;> omega
  · obtain ⟨r, hr⟩ := Option.isSome_iff_exists.1 h1
    rw [hr, Option.getD_some]
    exact selectLoop_multiset rand _ _ _ _ hr

/-- C2 counterexample: on the two-element candidate list that repeats
one URL, requesting two images returns that URL twice, so the returned
elements are not all distinct. -/
theorem fetch_duplicates_counterexample :
    (fetch (fun _ => 0) 2
        ["https://a.com/x.jpg".data, "https://a.com/x.jpg".data]).getD [] =
      ["https://a.com/x.jpg".data, "https://a.com/x.jpg".data] ∧
    decide (((fetch (fun _ => 0) 2
        ["https://a.com/x.jpg".data, "https://a.com/x.jpg".data]).getD []).Nodup) = false := by
  exact ⟨by decide, by decide⟩

/-- C3: whenever the requested count is at least the number of
candidates, fetch succeeds and returns a permutation of the full
candidate list. -/
theorem fetch_perm_of_ge {α : Type} [DecidableEq α] (rand : Nat → Nat)
    (num_results : Int) (image_urls : List α)
    (h : (image_urls.length : Int) ≤ num_results) :
    (fetch rand num_results image_urls).isSome = true ∧
    ((fetch rand num_results image_urls).getD []).Perm image_urls := by
  have hk : (if num_results ≤ (image_urls.length : Int) then num_results
      else (image_urls.length : Int)).toNat = image_urls.length := by
    split <;> omega
  unfold fetch
  rw [hk]
  have h1 := selectLoop_isSome rand image_urls.length image_urls 0 (Nat.le_refl _)
  refine ⟨h1, ?_⟩
  obtain ⟨r, hr⟩ := Option.isSome_iff_exists.1 h1
  rw [hr, Option.getD_some]
  exact selectLoop_perm rand _ _ _ _ rfl hr

/-- C3 witness: three candidates, five requested, a concrete oracle. -/
theorem fetch_perm_of_ge_witness :
    (fetch (fun _ => 1) 5 ["a".data, "b".data, "c".data]).isSome = true ∧
    ((fetch (fun _ => 1) 5 ["a".data, "b".data, "c".data]).getD []).Perm
      ["a".data, "b".data, "c".data] :=
  fetch_perm_of_ge (fun _ => 1) 5 ["a".data, "b".data, "c".data] (by decide)

/-- C4: evaluation of the __main__ argument handling.  When --num is
omitted, argparse stores the default 100 as a bare int and
args.num.pop() raises AttributeError, so the run fails before the
scraper is built; when --num is given, the value passes through. -/
theorem cli_default_num_crashes :
    cli_num none = none ∧ cli_num (some 7) = some 7 :=
  ⟨rfl, rfl⟩

/-- C5 (amended): for every output directory and every derived record,
the downloader trace opens the target file first, then issues the GET
for the raw bytes, then performs the single write of the full payload. -/
theorem fetch_image_event_order (image_dir : List Char) (d : ImageData) :
    (fetch_image_events image_dir d).findIdx isOpenEv = 0 ∧
    (fetch_image_events image_dir d).findIdx isGetEv = 1 ∧
    (fetch_image_events image_dir d).findIdx isWriteEv = 2 ∧
    ((fetch_image_events image_dir d).filter isWriteEv).length = 1 :=
  ⟨rfl, rfl, rfl, rfl⟩

/-- C5 counterexample: at a concrete directory and record, the index of
the GET event does not precede the index of the file-open event. -/
theorem fetch_image_open_before_get_counterexample :
    decide ((fetch_image_events "data/q".data
        (get_image_data 0 0 "q".data "GoogleImagesScraper".data
          "https://a.com/x.jpg".data)).findIdx isGetEv <
      (fetch_image_events "data/q".data
        (get_image_data 0 0 "q".data "GoogleImagesScraper".data
          "https://a.com/x.jpg".data)).findIdx isOpenEv) = false := by
  decide

/-- C6: _fetch_request succeeds exactly on the return formats raw and
html, returning the response bytes for raw and the response text for
html, and raises the TypeError value in every other case. -/
theorem fetch_request_formats (b : List Nat) (t : List Char) (f : List Char) :
    isOkOutcome (fetch_request b t f) =
      (decide (f = "raw".data) || decide (f = "html".data)) ∧
    fetch_request b t "raw".data = FetchOutcome.ok (FetchResponse.raw b) ∧
    fetch_request b t "html".data = FetchOutcome.ok (FetchResponse.html t) ∧
    (f = "raw".data ∨ f = "html".data ∨
      fetch_request b t f =
        FetchOutcome.typeError "please enter a valid return format (raw or html)".data) := by
  refine ⟨?_, ?_, ?_, ?_⟩
  · by_cases h1 : f = "raw".data
    · simp [fetch_request, h1, isOkOutcome]
    · by_cases h2 : f = "html".data
      · simp [fetch_request, h1, h2, isOkOutcome]
      · simp [fetch_request, h1, h2, isOkOutcome]
  · simp [fetch_request]
  · have hne : ¬ ("html".data = "raw".data) := by decide
    simp [fetch_request, hne]
  · by_cases h1 : f = "raw".data
    · exact Or.inl h1
    · by_cases h2 : f = "html".data
      · exact Or.inr (Or.inl h2)
      · exact Or.inr (Or.inr (by simp [fetch_request, h1, h2]))

/-- C7: in reverse-image-search mode the request targets the
searchbyimage endpoint with exactly the five documented parameters,
image_url bound to the query, and without q or tbm. -/
theorem reverse_request_params_correct (query : List Char) :
    (reverse_get_request_params query).url = "https://www.google.com/searchbyimage".data ∧
    (reverse_get_request_params query).params =
      [("image_url".data, query), ("encoded_image".data, []),
       ("image_content".data, []), ("filename".data, []),
       ("hl".data, "en".data)] ∧
    lookupParam (reverse_get_request_params query).params "image_url".data = some query ∧
    lookupParam (reverse_get_request_params query).params "encoded_image".data = some [] ∧
    lookupParam (reverse_get_request_params query).params "image_content".data = some [] ∧
    lookupParam (reverse_get_request_params query).params "filename".data = some [] ∧
    lookupParam (reverse_get_request_params query).params "hl".data = some "en".data ∧
    lookupParam (reverse_get_request_params query).params "q".data = none ∧
    lookupParam (reverse_get_request_params query).params "tbm".data = none := by
  refine ⟨rfl, rfl, ?_, ?_, ?_, ?_, ?_, ?_, ?_⟩ <;>
    simp [reverse_get_request_params, lookupParam]

theorem afterLastDot_of_not_mem : ∀ (s : List Char), '.' ∉ s → afterLastDot s = s := by
  intro s
  induction s with
  | nil => intro _; rfl
  | cons c cs ih =>
    intro h
    have hc : ¬ (c = '.') := fun hc => h (by rw [← hc]; exact List.mem_cons_self c cs)
    have hcs : '.' ∉ cs := fun hm => h (List.mem_cons_of_mem c hm)
    rw [afterLastDot, if_neg hcs, if_neg hc]

theorem pySplit_ne_nil (sep : Char) : ∀ (s : List Char), pySplit sep s ≠ [] := by
  intro s
  induction s with
  | nil => simp [pySplit]
  | cons c cs ih =>
    by_cases hc : c = sep
    · simp [pySplit, hc]
    · simp only [pySplit, if_neg hc]
      cases hps : pySplit sep cs <;> simp

theorem pySplit_of_not_mem (sep : Char) :
    ∀ (s : List Char), sep ∉ s → pySplit sep s = [s] := by
  intro s
  induction s with
  | nil => intro _; rfl
  | cons c cs ih =>
    intro h
    have hc : ¬ (c = sep) := fun hc => h (by rw [hc]; exact List.mem_cons_self sep cs)
    have hcs : sep ∉ cs := fun hm => h (List.mem_cons_of_mem c hm)
    simp only [pySplit, if_neg hc, ih hcs]

theorem pySplit_length_of_mem (sep : Char) :
    ∀ (s : List Char), sep ∈ s → 2 ≤ (pySplit sep s).length := by
  intro s
  induction s with
  | nil => intro h; simp at h
  | cons c cs ih =>
    intro h
    by_cases hc : c = sep
    · simp only [pySplit, if_pos hc, List.length_cons]
      have h1 : pySplit sep cs ≠ [] := pySplit_ne_nil sep cs
      have h2 : 0 < (pySplit sep cs).length := List.length_pos.2 h1
      omega
    · have hcs : sep ∈ cs := by
        rcases List.mem_cons.1 h with h1 | h2
        · exact absurd h1.symm hc
        · exact h2
      simp only [pySplit, if_neg hc]
      cases hps : pySplit sep cs with
      | nil => exact absurd hps (pySplit_ne_nil sep cs)
      | cons r rs =>
        have h2 := ih hcs
        rw [hps] at h2
        simp only [List.length_cons] at h2 ⊢
        omega

theorem pySplit_singleton (sep : Char) :
    ∀ (s r : List Char), pySplit sep s = [r] → r = s ∧ sep ∉ s := by
  intro s r h
  by_cases hm : sep ∈ s
  · have h2 := pySplit_length_of_mem sep s hm
    rw [h] at h2
    simp at h2
  · rw [pySplit_of_not_mem sep s hm] at h
    injection h with h1 _
    exact ⟨h1.symm, hm⟩

theorem pySplit_getLastD (s : List Char) :
    (pySplit '.' s).getLastD [] = afterLastDot s := by
  induction s with
  | nil => rfl
  | cons c cs ih =>
    by_cases hc : c = '.'
    · cases hps : pySplit '.' cs with
      | nil => exact absurd hps (pySplit_ne_nil '.' cs)
      | cons r rs =>
        have hlhs : (pySplit '.' (c :: cs)).getLastD [] = afterLastDot cs := by
          simp only [pySplit, if_pos hc, hps]
          rw [← hps, ← ih]
          simp [List.getLastD_eq_getLast?, hps]
        rw [hlhs, afterLastDot, if_pos hc]
        by_cases hm : '.' ∈ cs
        · rw [if_pos hm]
        · rw [if_neg hm, afterLastDot_of_not_mem cs hm]
    · cases hps : pySplit '.' cs with
      | nil => exact absurd hps (pySplit_ne_nil '.' cs)
      | cons r rs =>
        cases rs with
        | nil =>
          obtain ⟨hr, hm⟩ := pySplit_singleton '.' cs r hps
          simp only [pySplit, if_neg hc, hps]
          rw [afterLastDot, if_neg hm, if_neg hc, hr]
          rfl
        | cons r2 rs2 =>
          have hm : '.' ∈ cs := by
            by_contra hm
            rw [pySplit_of_not_mem '.' cs hm] at hps
            simp at hps
          simp only [pySplit, if_neg hc, hps]
          rw [afterLastDot, if_neg (fun hcm => hc hcm), if_pos hm]
          rw [← ih]
          rw [hps]
          simp [List.getLastD_eq_getLast?]

/-- C8: the derived record names the file by the basename of the source
URL and its format by the characters after the final dot of that
basename; in particular the dog.jpg example of the specification. -/
theorem get_image_data_fields (now_date now_time : Nat) (q s url : List Char) :
    (get_image_data now_date now_time q s url).image_filename = basename url ∧
    (get_image_data now_date now_time q s url).image_format = afterLastDot (basename url) ∧
    (get_image_data 0 0 q s "https://example.com/path/dog.jpg".data).image_filename =
      "dog.jpg".data ∧
    (get_image_data 0 0 q s "https://example.com/path/dog.jpg".data).image_format =
      "jpg".data := by
  refine ⟨rfl, pySplit_getLastD (basename url), ?_, ?_⟩
  · show basename "https://example.com/path/dog.jpg".data = "dog.jpg".data
    decide
  · show (pySplit '.' (basename "https://example.com/path/dog.jpg".data)).getLastD [] =
      "jpg".data
    decide

/-- C10: when the basename of the URL has no dot, the derived format is
the entire basename, and the [-1] lookup is safe because the split list
is never empty; the derivation itself is a total function. -/
theorem get_image_data_no_dot (now_date now_time : Nat) (q s url : List Char)
    (h : '.' ∉ basename url) :
    (get_image_data now_date now_time q s url).image_format = basename url ∧
    0 < (pySplit '.' (basename url)).length := by
  constructor
  · show (pySplit '.' (basename url)).getLastD [] = basename url
    rw [pySplit_getLastD, afterLastDot_of_not_mem _ h]
  · exact List.length_pos.2 (pySplit_ne_nil '.' (basename url))

/-- C10 witness: a URL whose basename has no dot. -/
theorem get_image_data_no_dot_witness :
    (get_image_data 0 0 [] [] "https://example.com/noext".data).image_format =
      basename "https://example.com/noext".data ∧
    0 < (pySplit '.' (basename "https://example.com/noext".data)).length :=
  get_image_data_no_dot 0 0 [] [] "https://example.com/noext".data (by decide)

theorem all_take_of_le_takeWhile (p : Char → Bool) :
    ∀ (l : List Char) (j : Nat), j ≤ (l.takeWhile p).length →
      (l.take j).all p = true := by
  intro l
  induction l with
  | nil => intro j _; simp
  | cons c cs ih =>
    intro j h
    by_cases hp : p c = true
    · rw [List.takeWhile_cons, if_pos hp] at h
      cases j with
      | zero => simp
      | succ m =>
        simp only [List.length_cons] at h
        simp only [List.take_succ_cons, List.all_cons, hp, Bool.true_and]
        exact ih m (Nat.le_of_succ_le_succ h)
    · rw [List.takeWhile_cons, if_neg hp] at h
      have hj : j = 0 := by simpa using h
      subst hj
      simp

theorem backtrackPlus_sound (rest : List Char) :
    ∀ (j len : Nat), backtrackPlus rest j = some len →
      ∃ jp e, 1 ≤ jp ∧ jp ≤ j ∧ (rest.drop jp).head? = some '.' ∧
        e ∈ extensions ∧ e.isPrefixOf (rest.drop (jp + 1)) = true ∧
        len = jp + 1 + e.length := by
  intro j
  induction j with
  | zero => intro len h; simp [backtrackPlus] at h
  | succ m ih =>
    intro len h
    rw [backtrackPlus] at h
    cases ht : tryDot rest (m + 1) with
    | some len2 =>
      rw [ht] at h
      injection h with h
      unfold tryDot at ht
      by_cases hd : (rest.drop (m + 1)).head? = some '.'
      · rw [if_pos hd] at ht
        cases hf : List.find? (fun e => e.isPrefixOf (rest.drop (m + 1 + 1))) extensions with
        | some e =>
          rw [hf] at ht
          injection ht with ht
          refine ⟨m + 1, e, Nat.succ_le_succ (Nat.zero_le m), Nat.le_refl _, hd,
            List.mem_of_find?_eq_some hf, ?_, ?_⟩
          · have hpred := List.find?_some hf
            exact hpred
          · omega
        | none => rw [hf] at ht; cases ht
      · rw [if_neg hd] at ht; cases ht
    | none =>
      rw [ht] at h
      obtain ⟨jp, e, h1, h2, h3, h4, h5, h6⟩ := ih len h
      exact ⟨jp, e, h1, Nat.le_succ_of_le h2, h3, h4, h5, h6⟩

theorem matchLen_sound (s : List Char) (len : Nat) (h : matchLen s = some len) :
    MatchesImagePattern (s.take len) := by
  unfold matchLen at h
  by_cases hp : "https://".data.isPrefixOf s = true
  case neg => rw [if_neg hp] at h; cases h
  rw [if_pos hp] at h
  cases hb : backtrackPlus (s.drop 8) ((s.drop 8).takeWhile isUrlChar).length with
  | none => rw [hb] at h; cases h
  | some len0 =>
    rw [hb] at h
    injection h with hlen
    obtain ⟨jp, e, hjp1, hjp2, hdot, hemem, hepre, hlen0⟩ :=
      backtrackPlus_sound (s.drop 8) _ _ hb
    have hjplt : jp < (s.drop 8).length := by
      by_contra hge
      rw [List.drop_eq_nil_iff.2 (by omega)] at hdot
      simp at hdot
    have hdp : (s.drop 8).drop jp = '.' :: (s.drop 8).drop (jp + 1) := by
      cases hd : (s.drop 8).drop jp with
      | nil => rw [hd] at hdot; simp at hdot
      | cons x xs =>
        rw [hd] at hdot
        simp only [List.head?_cons, Option.some.injEq] at hdot
        have ht := List.tail_drop (s.drop 8) jp
        rw [hd] at ht
        simp only [List.tail_cons] at ht
        rw [hdot, ht]
    have hepre2 : e <+: (s.drop 8).drop (jp + 1) := List.isPrefixOf_iff_prefix.1 hepre
    have he_take : ((s.drop 8).drop (jp + 1)).take e.length = e := by
      obtain ⟨t2, ht2⟩ := hepre2
      rw [← ht2, List.take_left]
    have h8 : s.take 8 = "https://".data := by
      have hp2 : "https://".data <+: s := List.isPrefixOf_iff_prefix.1 hp
      obtain ⟨t2, ht2⟩ := hp2
      rw [← ht2]
      exact List.take_left' (by decide)
    have hu : s.take len = "https://".data ++ ((s.drop 8).take jp ++ ('.' :: e)) := by
      calc s.take len = s.take (8 + len0) := by rw [hlen]
        _ = s.take 8 ++ (s.drop 8).take len0 := List.take_add s 8 len0
        _ = "https://".data ++ (s.drop 8).take len0 := by rw [h8]
        _ = "https://".data ++
              ((s.drop 8).take jp ++ ((s.drop 8).drop jp).take (1 + e.length)) := by
            rw [show len0 = jp + (1 + e.length) from by omega,
              List.take_add]
        _ = "https://".data ++ ((s.drop 8).take jp ++ ('.' :: e)) := by
            rw [hdp, Nat.add_comm 1 e.length, List.take_succ_cons, he_take]
    refine ⟨(s.drop 8).take jp, e, ?_, ?_, hemem, ?_⟩
    · simp only [List.length_take]
      omega
    · exact all_take_of_le_takeWhile isUrlChar (s.drop 8) jp hjp2
    · rw [hu, ← List.append_assoc]

theorem findallFuel_sound :
    ∀ (fuel : Nat) (s u : List Char), u ∈ findallFuel fuel s →
      MatchesImagePattern u ∧ u <:+: s := by
  intro fuel
  induction fuel with
  | zero => intro s u h; simp [findallFuel] at h
  | succ n ih =>
    intro s u h
    cases s with
    | nil => simp [findallFuel] at h
    | cons c cs =>
      rw [findallFuel] at h
      cases hm : matchLen (c :: cs) with
      | some len =>
        rw [hm] at h
        rcases List.mem_cons.1 h with h1 | h2
        · subst h1
          exact ⟨matchLen_sound (c :: cs) len hm,
            ⟨[], (c :: cs).drop len, by simp⟩⟩
        · obtain ⟨hpat, hinf⟩ := ih (cs.drop (len - 1)) u h2
          refine ⟨hpat, hinf.trans ?_⟩
          exact ((List.drop_suffix (len - 1) cs).trans (List.suffix_cons c cs)).isInfix
      | none =>
        rw [hm] at h
        obtain ⟨hpat, hinf⟩ := ih cs u h
        exact ⟨hpat, hinf.trans (List.suffix_cons c cs).isInfix⟩

/-- C1 (amended): the Extractor returns exactly the pattern matches of
the findall scan, in scan order, keeping duplicates and excluding every
URL that contains the substring gstatic anywhere in the URL; every
returned string is a substring of the input, matches the image-URL
pattern, and is gstatic-free. -/
theorem fetch_image_urls_correct (html : List Char) :
    fetch_image_urls_of html =
      (findall html).filter (fun u => !(isSubstr "gstatic".data u)) ∧
    ∀ u, u ∈ fetch_image_urls_of html →
      MatchesImagePattern u ∧ u <:+: html ∧ isSubstr "gstatic".data u = false := by
  refine ⟨rfl, ?_⟩
  intro u hu
  have hu2 : u ∈ findall html ∧ filter_image_urls u = true := List.mem_filter.1 hu
  obtain ⟨hpat, hinf⟩ := findallFuel_sound html.length html u hu2.1
  refine ⟨hpat, hinf, ?_⟩
  have hf := hu2.2
  unfold filter_image_urls at hf
  simpa using hf

/-- C1 witness: a concrete page containing one clean image URL. -/
theorem fetch_image_urls_correct_witness :
    MatchesImagePattern "https://a.bc/d.png".data ∧
    "https://a.bc/d.png".data <:+: "x https://a.bc/d.png y".data ∧
    isSubstr "gstatic".data "https://a.bc/d.png".data = false :=
  (fetch_image_urls_correct "x https://a.bc/d.png y".data).2
    "https://a.bc/d.png".data (by decide)

/-- C1 counterexample: an input that is itself a pattern-matching URL
whose host is gstatic-free but whose path contains gstatic.  The claim
as stated requires this URL in the output, yet the code returns the
empty list because _filter_image_urls tests the whole URL. -/
theorem fetch_image_urls_gstatic_host_counterexample :
    fetch_image_urls_of "https://a.com/gstatic.jpg".data = [] ∧
    MatchesImagePattern "https://a.com/gstatic.jpg".data ∧
    isSubstr "gstatic".data (hostOf "https://a.com/gstatic.jpg".data) = false := by
  refine ⟨by decide, ?_, by decide⟩
  exact ⟨"a.com/gstatic".data, "jpg".data, by decide, by decide, by decide, by decide⟩
